import Mathlib

/-!
Shallow embedding of the pi-benchmark estimation engine (src/main.rs).

The engine has two kernels: a sequential Leibniz series (`leibniz_pi`) and a
parallel Monte-Carlo sampler (`monte_carlo_hits` per worker, aggregated by
`run_monte_carlo`).  Machine integers (`u64`, `u128`) are modelled as `Nat`
with explicit `% 2^64` / `% 2^128` exactly where the Rust code uses wrapping
arithmetic (`wrapping_mul`/`wrapping_add`) or a fixed-width accumulator;
plain Rust arithmetic (whose overflow is a panic in debug builds, not a
wraparound contract) is modelled as exact `Nat` arithmetic.

Floating-point (`f64`) values are modelled as exact rationals together with a
correctly-rounded operation model: every `f64` produced by this program is
zero or a normal binary64 number, so IEEE-754 double arithmetic on them is
exactly "compute the rational result, then round to 53 significant bits,
round-to-nearest, ties-to-even".  `fRound` implements that rounding on `ℚ`
(with unbounded exponent range, which agrees with binary64 on every value this
program can produce: all magnitudes lie far inside the normal range and far
below overflow).  The heavy computation is done on `Nat`/`Int` so that the
kernel can evaluate it.
-/

/-- Fuel-driven floor-log2 helper: `log2fuel f n` halves `n` until it reaches 1,
counting the steps; `f` is an upper bound on the number of halvings. -/
def log2fuel : Nat → Nat → Nat
  | 0, _ => 0
  | f + 1, n => if n ≤ 1 then 0 else log2fuel f (n / 2) + 1

/-- Floor of log2 of a natural number (0 for inputs 0 and 1).  `n` itself is
always enough fuel, since halving reaches 1 after at most `n` steps. -/
def floorLog2 (n : Nat) : Nat := log2fuel n n

/-- Floor of log2 of the positive rational `p / q` (`p, q ≥ 1`).  For `p ≥ q`
this is the bit length of `p / q` (integer division) minus one; for `p < q` it
is obtained from the bit length of `q / p`, with an exact-power-of-two
correction. -/
def ratFloorLog2 (p q : Nat) : Int :=
  if q ≤ p then Int.ofNat (floorLog2 (p / q))
  else
    let f := floorLog2 (q / p)
    if q = p * 2 ^ f then -(f : Int) else -(f : Int) - 1

/-- Round the positive rational `p / q` (`p, q ≥ 1`) to 53 significant bits,
round-to-nearest, ties-to-even.  Returns `(a, k)` representing the dyadic
rational `a / 2^k`.  The significand is scaled so that the integer part `n` of
the scaled value has exactly 53 bits, the remainder `r` against the scaled
denominator decides the rounding direction, and a tie (`2r` equal to the
denominator) rounds to the even significand. -/
def roundPosCore (p q : Nat) : Nat × Nat :=
  let e : Int := ratFloorLog2 p q
  let s : Int := 52 - e
  if 0 ≤ s then
    let P := p * 2 ^ s.toNat
    let n := P / q
    let r := P % q
    let n2 := if q < 2 * r ∨ (2 * r = q ∧ n % 2 = 1) then n + 1 else n
    (n2, s.toNat)
  else
    let t := (-s).toNat
    let Q := q * 2 ^ t
    let n := p / Q
    let r := p % Q
    let n2 := if Q < 2 * r ∨ (2 * r = Q ∧ n % 2 = 1) then n + 1 else n
    (n2 * 2 ^ t, 0)

/-- The rounded value of the positive rational `p / q`, as a rational. -/
def roundPos (p q : Nat) : ℚ :=
  ((roundPosCore p q).1 : ℚ) / ((2 ^ (roundPosCore p q).2 : Nat) : ℚ)

/-- Correctly-rounded binary64 rounding of a rational: round to 53 significant
bits, round-to-nearest, ties-to-even, symmetric in sign, with unbounded
exponent range (every value arising in this program is zero or normal, so this
agrees with IEEE-754 binary64). -/
def fRound (x : ℚ) : ℚ :=
  if x = 0 then 0
  else if 0 < x then roundPos x.num.toNat x.den
  else -(roundPos (-x.num).toNat x.den)

/-- Binary64 addition: exact sum, then rounding. -/
def fadd (a b : ℚ) : ℚ := fRound (a + b)

/-- Binary64 multiplication: exact product, then rounding. -/
def fmul (a b : ℚ) : ℚ := fRound (a * b)

/-- Binary64 division: exact quotient, then rounding. -/
def fdiv (a b : ℚ) : ℚ := fRound (a / b)

/-- Rust `as f64` conversion of an unsigned integer: round to nearest double. -/
def toF64 (n : Nat) : ℚ := fRound (n : ℚ)

/-- Rust `fn split_work(total: u64, buckets: u64) -> (u64, u64)` (main.rs:293):
plain truncating division and remainder, with no validation of either
argument. -/
def split_work (total buckets : Nat) : Nat × Nat :=
  (total / buckets, total % buckets)

/-- Per-worker seed derivation from `run_monte_carlo` (main.rs:186):
`base_seed ^ (0x9E37_79B9_7F4A_7C15u64.wrapping_mul(idx as u64 + 1))`.  The
`wrapping_mul` is 64-bit wraparound multiplication, hence the `% 2^64`. -/
def derive_seed (base_seed idx : Nat) : Nat :=
  base_seed ^^^ ((0x9E3779B97F4A7C15 * (idx + 1)) % 2 ^ 64)

/-- Rust `fn next_unit_f64(state: &mut u64) -> f64` (main.rs:235).  The state
update uses `wrapping_mul`/`wrapping_add` (64-bit wraparound, hence `% 2^64`);
`bits = (state >> 11) | 0x3FF0_0000_0000_0000` has sign bit 0 and exponent
field exactly 0x3FF (proved in `next_unit_bits_exponent_field`), so
`f64::from_bits(bits)` is exactly `1 + (bits % 2^52) / 2^52`, and subtracting
`1.0` is exact in binary64 because the difference `(bits % 2^52) / 2^52` is
itself representable.  The returned pair is (new state, returned value). -/
def next_unit_f64 (state : Nat) : Nat × ℚ :=
  let s := (state * 6364136223846793005 + 1) % 2 ^ 64
  let bits := (s >>> 11) ||| 0x3FF0000000000000
  (s, (1 + ((bits % 2 ^ 52 : Nat) : ℚ) / ((2 ^ 52 : Nat) : ℚ)) - 1)

/-- The sampling loop of `fn monte_carlo_hits` (main.rs:225-231): draw `x`
and `y` from the stream, and count the draw as a hit when
`x * x + y * y <= 1.0` (two binary64 multiplications and one binary64
addition, then an exact comparison).  Arguments: remaining samples, generator
state, hits so far. -/
def mcLoop : Nat → Nat → Nat → Nat
  | 0, _, hits => hits
  | n + 1, state, hits =>
    let x := (next_unit_f64 state).2
    let s1 := (next_unit_f64 state).1
    let y := (next_unit_f64 s1).2
    let s2 := (next_unit_f64 s1).1
    mcLoop n s2 (if fadd (fmul x x) (fmul y y) ≤ 1 then hits + 1 else hits)

/-- Rust `fn monte_carlo_hits(samples: u64, seed: u64) -> u64` (main.rs:222):
the stream state is initialised to `seed | 1` and the hit counter to 0. -/
def monte_carlo_hits (samples seed : Nat) : Nat :=
  mcLoop samples (seed ||| 1) 0

/-- Per-worker chunk from `run_monte_carlo` (main.rs:185):
`per_thread + u64::from(idx < remainder as usize)`. -/
def chunk_size (samples thread_count idx : Nat) : Nat :=
  let pr := split_work samples thread_count
  pr.1 + (if idx < pr.2 then 1 else 0)

/-- The partial result returned by worker `idx` in `run_monte_carlo`
(main.rs:187-189): `monte_carlo_hits(chunk, seed_for_thread)`.  Worker threads
share no state, so each join result is a pure function of these inputs; the
`unwrap_or(0)` fallback for a panicked thread is not modelled (no modelled
worker fails). -/
def worker_hits (samples thread_count base_seed idx : Nat) : Nat :=
  monte_carlo_hits (chunk_size samples thread_count idx) (derive_seed base_seed idx)

/-- The aggregation sum of `run_monte_carlo` (main.rs:192-195): partial hit
counts collected in spawn order, summed exactly (the mathematical value of the
`u128` accumulation; see `total_hits_u128` for the accumulator with its
128-bit width made explicit). -/
def total_hits (samples thread_count base_seed : Nat) : Nat :=
  ((List.range thread_count).map (worker_hits samples thread_count base_seed)).sum

/-- The aggregation sum computed exactly as Rust does: widening each `u64`
partial count to `u128` and adding inside the 128-bit accumulator, i.e. with
`% 2^128` at every step. -/
def total_hits_u128 (samples thread_count base_seed : Nat) : Nat :=
  (List.range thread_count).foldl
    (fun acc idx => (acc + worker_hits samples thread_count base_seed idx) % 2 ^ 128) 0

/-- The aggregation sum when the join results are collected in an arbitrary
order of worker indices (the scheduler may finish workers in any order; the
code joins handles in spawn order, and the sum is order-independent). -/
def total_hits_ordered (samples thread_count base_seed : Nat) (order : List Nat) : Nat :=
  (order.map (worker_hits samples thread_count base_seed)).sum

/-- The final estimate of `run_monte_carlo` (main.rs:198):
`4.0 * (total_hits as f64) / (samples as f64)`, three binary64 operations. -/
def estimate_parallel (samples thread_count base_seed : Nat) : ℚ :=
  fdiv (fmul 4 (toF64 (total_hits samples thread_count base_seed))) (toF64 samples)

/-- `estimate_parallel` with the join results collected in an arbitrary order
of worker indices. -/
def estimate_parallel_ordered (samples thread_count base_seed : Nat)
    (order : List Nat) : ℚ :=
  fdiv (fmul 4 (toF64 (total_hits_ordered samples thread_count base_seed order)))
    (toF64 samples)

/-- The sign of the `k`-th Leibniz term (main.rs:216):
`if k % 2 == 0 { 1.0 } else { -1.0 }`. -/
def leibnizTerm (k : Nat) : ℚ := if k % 2 = 0 then 1 else -1

/-- The accumulator of `fn leibniz_pi` after `k` loop iterations
(main.rs:214-218): `acc += term / (2 * k + 1) as f64` — a binary64 division of
the term by the converted denominator, then a binary64 addition. -/
def leibnizAcc : Nat → ℚ
  | 0 => 0
  | k + 1 => fadd (leibnizAcc k) (fdiv (leibnizTerm k) (toF64 (2 * k + 1)))

/-- Rust `fn leibniz_pi(iterations: u64) -> f64` (main.rs:213-220): the final
`4.0 * acc` (a binary64 multiplication, exact here since scaling by 4 is exact
for every in-range double). -/
def leibniz_pi (iterations : Nat) : ℚ := fmul 4 (leibnizAcc iterations)

/-- The series of the spec, §4.3/§8: `sum_{k=0}^{iterations-1} (-1)^k/(2k+1)`
evaluated by sequential floating-point summation in index order.  Written from
the spec wording (a left fold over the indices in order), for comparison with
the source-derived `leibniz_pi`. -/
def series_spec_sum (iterations : Nat) : ℚ :=
  (List.range iterations).foldl
    (fun acc k => fadd acc (fdiv (if k % 2 = 0 then 1 else -1) (toF64 (2 * k + 1)))) 0

/-- The validation-and-estimation path of `fn run_single_threaded`
(main.rs:102-107): zero iterations are rejected with a descriptive error
before `leibniz_pi` runs.  CLI parsing, timing, printing and persistence are
out of scope. -/
def run_single_threaded (iterations : Nat) : Except String ℚ :=
  if iterations = 0 then Except.error ("Iterations must be greater than zero")
  else Except.ok (leibniz_pi iterations)

/-- The validation-and-estimation path of `fn run_monte_carlo`
(main.rs:169-198): zero samples and a zero thread count are each rejected with
a descriptive error before any splitting or sampling; otherwise the parallel
estimate is computed.  CLI parsing, the wall-clock default seed, timing,
printing and persistence are out of scope. -/
def run_monte_carlo (samples thread_count base_seed : Nat) : Except String ℚ :=
  if samples = 0 then Except.error ("Samples must be greater than zero")
  else if thread_count = 0 then Except.error ("Thread count must be at least 1")
  else Except.ok (estimate_parallel samples thread_count base_seed)

/-! ### Helper lemmas -/

theorem roundPosCore_one_one : roundPosCore 1 1 = (2 ^ 52, 52) := by decide

theorem roundPosCore_four_one : roundPosCore 4 1 = (2 ^ 52, 50) := by decide

theorem fRound_zero : fRound 0 = 0 := by simp [fRound]

theorem fRound_one : fRound 1 = 1 := by
  have hnum : (1 : ℚ).num.toNat = 1 := rfl
  have hden : (1 : ℚ).den = 1 := rfl
  simp only [fRound]
  rw [if_neg one_ne_zero, if_pos one_pos, hnum, hden, roundPos, roundPosCore_one_one]
  norm_num

theorem fRound_four : fRound 4 = 4 := by
  have hnum : (4 : ℚ).num.toNat = 4 := rfl
  have hden : (4 : ℚ).den = 1 := rfl
  simp only [fRound]
  rw [if_neg (by norm_num : (4 : ℚ) ≠ 0), if_pos (by norm_num : (0 : ℚ) < 4),
    hnum, hden, roundPos, roundPosCore_four_one]
  norm_num

theorem toF64_one : toF64 1 = 1 := by
  simp only [toF64, Nat.cast_one, fRound_one]

theorem mcLoop_le (n : Nat) : ∀ state hits : Nat, mcLoop n state hits ≤ hits + n := by
  induction n with
  | zero => intro state hits; simp [mcLoop]
  | succ m ih =>
    intro state hits
    simp only [mcLoop]
    split
    · exact le_trans (ih _ _) (by omega)
    · exact le_trans (ih _ _) (by omega)

theorem chunk_size_eq (samples thread_count idx : Nat) :
    chunk_size samples thread_count idx
      = samples / thread_count + (if idx < samples % thread_count then 1 else 0) := rfl

theorem range_map_add_ite_sum (per rem : Nat) :
    ∀ tc : Nat, ((List.range tc).map (fun i => per + if i < rem then 1 else 0)).sum
      = per * tc + min rem tc := by
  intro tc
  induction tc with
  | zero => simp
  | succ n ih =>
    rw [List.range_succ, List.map_append, List.sum_append, ih]
    simp only [List.map_cons, List.map_nil, List.sum_cons, List.sum_nil]
    rw [Nat.mul_succ]
    rcases Nat.lt_or_ge n rem with h | h
    · rw [if_pos h]; omega
    · rw [if_neg (by omega)]; omega

theorem chunk_sum (samples tc : Nat) (h : 1 ≤ tc) :
    ((List.range tc).map (chunk_size samples tc)).sum = samples := by
  have hc : chunk_size samples tc
      = fun i => samples / tc + if i < samples % tc then 1 else 0 := rfl
  rw [hc, range_map_add_ite_sum]
  have h1 : samples % tc < tc := Nat.mod_lt _ h
  have h2 := Nat.div_add_mod samples tc
  rw [Nat.min_eq_left h1.le, Nat.mul_comm]
  omega

theorem foldl_mod_eq_sum (f : Nat → Nat) :
    ∀ (l : List Nat) (acc : Nat), acc + (l.map f).sum < 2 ^ 128 →
      l.foldl (fun a i => (a + f i) % 2 ^ 128) acc = acc + (l.map f).sum := by
  intro l
  induction l with
  | nil => intro acc h; simp
  | cons x xs ih =>
    intro acc h
    simp only [List.foldl_cons, List.map_cons, List.sum_cons] at h ⊢
    rw [Nat.mod_eq_of_lt (by omega), ih (acc + f x) (by omega)]
    omega

theorem leibnizAcc_eq_spec_fold : ∀ n : Nat, leibnizAcc n = series_spec_sum n := by
  intro n
  induction n with
  | zero => rfl
  | succ m ih =>
    show fadd (leibnizAcc m) (fdiv (leibnizTerm m) (toF64 (2 * m + 1))) = _
    rw [series_spec_sum, List.range_succ, List.foldl_append, List.foldl_cons,
      List.foldl_nil, ih]
    rfl

theorem leibnizAcc_one : leibnizAcc 1 = 1 := by
  show fadd (leibnizAcc 0) (fdiv (leibnizTerm 0) (toF64 (2 * 0 + 1))) = 1
  have h0 : leibnizAcc 0 = 0 := rfl
  have ht : leibnizTerm 0 = 1 := rfl
  rw [h0, ht]
  norm_num [toF64_one, fdiv, fadd, fRound_one]

theorem leibniz_pi_one : leibniz_pi 1 = 4 := by
  rw [leibniz_pi, leibnizAcc_one, fmul, mul_one, fRound_four]

theorem bits_exponent_field (a : Nat) (ha : a < 2 ^ 53) :
    (a ||| 0x3FF0000000000000) >>> 52 = 0x3FF := by
  have hm : (0x3FF0000000000000 : Nat) = 1023 <<< 52 := by decide
  apply Nat.eq_of_testBit_eq
  intro i
  rw [Nat.testBit_shiftRight, Nat.testBit_or, hm, Nat.testBit_shiftLeft]
  have h1023 : (0x3FF : Nat) = 2 ^ 10 - 1 := by decide
  rw [h1023, Nat.testBit_two_pow_sub_one, Nat.testBit_two_pow_sub_one]
  rcases Nat.lt_or_ge i 10 with hi | hi
  · simp [hi]
  · have hfa : a.testBit (52 + i) = false :=
      Nat.testBit_lt_two_pow (ha.trans_le (Nat.pow_le_pow_right (by omega) (by omega)))
    simp [hfa, Nat.not_lt.mpr hi]

theorem next_unit_bits_exponent_field (s : Nat) (hs : s < 2 ^ 64) :
    ((s >>> 11) ||| 0x3FF0000000000000) >>> 52 = 0x3FF := by
  apply bits_exponent_field
  rw [Nat.shiftRight_eq_div_pow]
  exact (Nat.div_lt_iff_lt_mul (by norm_num)).mpr (by norm_num at hs ⊢; omega)

theorem next_unit_value_eq (state : Nat) :
    (next_unit_f64 state).2 =
      (((((state * 6364136223846793005 + 1) % 2 ^ 64) >>> 11) |||
          0x3FF0000000000000) % 2 ^ 52 : Nat) / ((2 ^ 52 : Nat) : ℚ) := by
  simp only [next_unit_f64]
  rw [add_sub_cancel_left]

/-- C1: for `total_units ≥ 1` and `worker_count ≥ 1`, `split_work` returns
exactly `(total / workers, total % workers)`, with `base * workers + rem =
total` and `rem < workers`; giving the first `rem` workers `base + 1` units
and the rest `base` units (the `chunk_size` of the code) partitions
`total_units` exactly and any two chunks differ by at most one unit. -/
theorem split_work_exact (total buckets : Nat) (ht : 1 ≤ total) (hb : 1 ≤ buckets) :
    split_work total buckets = (total / buckets, total % buckets) ∧
    total / buckets * buckets + total % buckets = total ∧
    total % buckets < buckets ∧
    ((List.range buckets).map (chunk_size total buckets)).sum = total ∧
    (∀ i j : Nat, chunk_size total buckets i ≤ chunk_size total buckets j + 1) := by
  refine ⟨rfl, ?_, Nat.mod_lt _ hb, chunk_sum total buckets hb, ?_⟩
  · rw [Nat.mul_comm]
    exact Nat.div_add_mod total buckets
  · intro i j
    rw [chunk_size_eq, chunk_size_eq]
    split <;> split <;> omega

theorem split_work_exact_witness :
    split_work 5 3 = (5 / 3, 5 % 3) ∧
    5 / 3 * 3 + 5 % 3 = 5 ∧ 5 % 3 < 3 ∧
    ((List.range 3).map (chunk_size 5 3)).sum = 5 ∧
    (∀ i j : Nat, chunk_size 5 3 i ≤ chunk_size 5 3 j + 1) :=
  split_work_exact 5 3 (by norm_num) (by norm_num)

/-- C2: each per-worker seed is `base_seed XOR (0x9E3779B97F4A7C15 * (idx+1))`
with 64-bit wraparound multiplication (first conjunct, and determinism is
immediate since `derive_seed` is a pure function of `(base_seed, idx)`); for
any base seed and any `worker_count ≤ 256` the derived seeds of distinct
worker indices below `worker_count` are pairwise distinct (second conjunct:
the multiplier is odd, hence invertible modulo `2^64`, so the XOR masks of
distinct indices differ). -/
theorem derive_seed_deterministic_distinct (base_seed worker_count : Nat)
    (hw : worker_count ≤ 256) :
    (∀ idx : Nat, derive_seed base_seed idx
        = base_seed ^^^ ((0x9E3779B97F4A7C15 * (idx + 1)) % 2 ^ 64)) ∧
    (∀ i j : Nat, i < worker_count → j < worker_count → i ≠ j →
      derive_seed base_seed i ≠ derive_seed base_seed j) := by
  refine ⟨fun idx => rfl, ?_⟩
  intro i j hi hj hne heq
  apply hne
  have hmask : (0x9E3779B97F4A7C15 * (i + 1)) % 2 ^ 64
      = (0x9E3779B97F4A7C15 * (j + 1)) % 2 ^ 64 := by
    have h2 := congrArg (fun z => base_seed ^^^ z) heq
    simpa [derive_seed, ← Nat.xor_assoc, Nat.xor_self, Nat.zero_xor] using h2
  have hcop : Nat.gcd (2 ^ 64) 0x9E3779B97F4A7C15 = 1 := by decide
  have hmeq : i + 1 ≡ j + 1 [MOD 2 ^ 64] :=
    Nat.ModEq.cancel_left_of_coprime hcop hmask
  have hi64 : i + 1 < 2 ^ 64 :=
    lt_of_le_of_lt (le_trans (Nat.succ_le_of_lt hi) hw) (by norm_num)
  have hj64 : j + 1 < 2 ^ 64 :=
    lt_of_le_of_lt (le_trans (Nat.succ_le_of_lt hj) hw) (by norm_num)
  rw [Nat.ModEq, Nat.mod_eq_of_lt hi64, Nat.mod_eq_of_lt hj64] at hmeq
  exact Nat.add_right_cancel hmeq

theorem derive_seed_deterministic_distinct_witness :
    derive_seed 42 0 ≠ derive_seed 42 1 :=
  (derive_seed_deterministic_distinct 42 2 (by norm_num)).2 0 1 (by norm_num)
    (by norm_num) (by norm_num)

/-- C3: one call to `next_unit_f64` advances the state to
`state * 6364136223846793005 + 1` modulo `2^64`; the assembled bit pattern has
sign bit 0 and exponent field exactly 0x3FF (so decoding it as an IEEE-754
double gives `1 + mantissa / 2^52` and the subtraction of 1.0 is exact); and
the returned value lies in `[0, 1)` and is never exactly 1. -/
theorem next_unit_f64_step_spec (state : Nat) :
    (next_unit_f64 state).1 = (state * 6364136223846793005 + 1) % 2 ^ 64 ∧
    ((((state * 6364136223846793005 + 1) % 2 ^ 64) >>> 11) |||
        0x3FF0000000000000) >>> 52 = 0x3FF ∧
    0 ≤ (next_unit_f64 state).2 ∧ (next_unit_f64 state).2 < 1 ∧
    (next_unit_f64 state).2 ≠ 1 := by
  have hmlt : ((((state * 6364136223846793005 + 1) % 2 ^ 64) >>> 11) |||
      0x3FF0000000000000) % 2 ^ 52 < 2 ^ 52 := Nat.mod_lt _ (by norm_num)
  have hlt1 : (next_unit_f64 state).2 < 1 := by
    rw [next_unit_value_eq, div_lt_one (by positivity)]
    exact_mod_cast hmlt
  refine ⟨rfl, next_unit_bits_exponent_field _ (Nat.mod_lt _ (by norm_num)), ?_,
    hlt1, ne_of_lt hlt1⟩
  rw [next_unit_value_eq]
  positivity

/-- C6: the hit count of a sampling run never exceeds the chunk size (each
loop iteration adds at most one), and a zero-size chunk yields zero hits. -/
theorem monte_carlo_hits_bounds (chunk seed : Nat) :
    monte_carlo_hits chunk seed ≤ chunk ∧ monte_carlo_hits 0 seed = 0 := by
  constructor
  · simpa [monte_carlo_hits] using mcLoop_le chunk (seed ||| 1) 0
  · rfl

/-- C9: since the stream state is initialised to `seed | 1`, forcing the low
bit, a seed and that seed with its low bit forced produce the same state and
hence identical hit counts for every chunk size. -/
theorem monte_carlo_hits_seed_alias (chunk seed : Nat) :
    monte_carlo_hits chunk seed = monte_carlo_hits chunk (seed ||| 1) := by
  show mcLoop chunk (seed ||| 1) 0 = mcLoop chunk ((seed ||| 1) ||| 1) 0
  rw [Nat.or_assoc, Nat.or_self]

/-- C10: the series kernel is total at the excluded boundary input:
`leibniz_pi 0` is the empty sum scaled by 4, i.e. exactly 0, rather than a
failure. -/
theorem leibniz_pi_zero_total : leibniz_pi 0 = 0 := by
  show fmul 4 (leibnizAcc 0) = 0
  have h0 : leibnizAcc 0 = 0 := rfl
  rw [h0, fmul, mul_zero, fRound_zero]

/-- C4: the parallel estimate is a pure function of `(samples, worker_count,
seed)`: collecting the per-worker hit counts in any completion order (any
permutation of the worker indices) yields the same aggregate and the same
estimate as the canonical spawn-order run, so two runs with identical inputs
produce identical (hence bit-identical) estimates regardless of scheduling. -/
theorem estimate_parallel_deterministic (samples thread_count base_seed : Nat)
    (hs : 1 ≤ samples) (htc : 1 ≤ thread_count) (order1 order2 : List Nat)
    (h1 : order1.Perm (List.range thread_count))
    (h2 : order2.Perm (List.range thread_count)) :
    estimate_parallel_ordered samples thread_count base_seed order1
      = estimate_parallel_ordered samples thread_count base_seed order2 ∧
    estimate_parallel_ordered samples thread_count base_seed order1
      = estimate_parallel samples thread_count base_seed := by
  have key : ∀ o : List Nat, o.Perm (List.range thread_count) →
      total_hits_ordered samples thread_count base_seed o
        = total_hits samples thread_count base_seed := fun o ho => by
    simpa [total_hits_ordered, total_hits]
      using (ho.map (worker_hits samples thread_count base_seed)).sum_eq
  constructor
  · simp only [estimate_parallel_ordered, key order1 h1, key order2 h2]
  · simp only [estimate_parallel_ordered, estimate_parallel, key order1 h1]

theorem estimate_parallel_deterministic_witness :
    estimate_parallel_ordered 3 2 7 [1, 0] = estimate_parallel 3 2 7 :=
  (estimate_parallel_deterministic 3 2 7 (by norm_num) (by norm_num) [1, 0] [0, 1]
    (by rw [show List.range 2 = [0, 1] from rfl]; exact List.Perm.swap 0 1 [])
    (by rw [show List.range 2 = [0, 1] from rfl])).2

/-- C5: every partial hit count is bounded by its worker's chunk size; the
exact sum of the partial counts is at most `total_units`; the 128-bit
accumulation (`total_hits_u128`, with `% 2^128` at each step) therefore never
wraps and equals the exact mathematical sum; and the final estimate is
`4.0 * total_hits / samples` computed in floating point. -/
theorem aggregation_overflow_safe (samples thread_count base_seed : Nat)
    (htc : 1 ≤ thread_count) (hs : samples < 2 ^ 64) :
    (∀ idx : Nat, worker_hits samples thread_count base_seed idx
        ≤ chunk_size samples thread_count idx) ∧
    total_hits samples thread_count base_seed ≤ samples ∧
    total_hits_u128 samples thread_count base_seed
      = total_hits samples thread_count base_seed ∧
    total_hits samples thread_count base_seed % 2 ^ 128
      = total_hits samples thread_count base_seed ∧
    estimate_parallel samples thread_count base_seed
      = fdiv (fmul 4 (toF64 (total_hits samples thread_count base_seed)))
          (toF64 samples) := by
  have hw : ∀ idx : Nat, worker_hits samples thread_count base_seed idx
      ≤ chunk_size samples thread_count idx := fun idx => by
    simpa [worker_hits, monte_carlo_hits]
      using mcLoop_le (chunk_size samples thread_count idx)
        (derive_seed base_seed idx ||| 1) 0
  have hsum : total_hits samples thread_count base_seed ≤ samples := by
    calc ((List.range thread_count).map
          (worker_hits samples thread_count base_seed)).sum
        ≤ ((List.range thread_count).map (chunk_size samples thread_count)).sum :=
          List.sum_le_sum (fun i _ => hw i)
      _ = samples := chunk_sum samples thread_count htc
  have hlt : total_hits samples thread_count base_seed < 2 ^ 128 :=
    lt_of_le_of_lt hsum (lt_of_lt_of_le hs (by norm_num))
  have h128 : total_hits_u128 samples thread_count base_seed
      = total_hits samples thread_count base_seed := by
    simp only [total_hits_u128]
    rw [foldl_mod_eq_sum (worker_hits samples thread_count base_seed)
      (List.range thread_count) 0 (by simpa [total_hits] using hlt)]
    simp [total_hits]
  exact ⟨hw, hsum, h128, Nat.mod_eq_of_lt hlt, rfl⟩

theorem aggregation_overflow_safe_witness : total_hits 4 2 9 ≤ 4 :=
  (aggregation_overflow_safe 4 2 9 (by norm_num) (by norm_num)).2.1

/-- C7: for every `iterations ≥ 1` the series kernel returns 4 times the sum
`sum_{k=0}^{iterations-1} (-1)^k/(2k+1)` evaluated by sequential
floating-point summation in index order (the spec-side left fold
`series_spec_sum`), and `leibniz_pi 1` is exactly 4. -/
theorem leibniz_pi_series_formula (iterations : Nat) (h : 1 ≤ iterations) :
    leibniz_pi iterations = fmul 4 (series_spec_sum iterations) ∧
    leibniz_pi 1 = 4 :=
  ⟨by rw [leibniz_pi, leibnizAcc_eq_spec_fold], leibniz_pi_one⟩

theorem leibniz_pi_series_formula_witness :
    leibniz_pi 1 = fmul 4 (series_spec_sum 1) ∧ leibniz_pi 1 = 4 :=
  leibniz_pi_series_formula 1 (by norm_num)

/-- C8 counterexample: `split_work` does not fail on zero `total_units` — it
returns the ordinary pair `(0, 0)`.  Its Rust type `(u64, u64)` cannot even
express an `InvalidConfiguration` failure (and with `buckets = 0` the Rust
code would panic with a divide-by-zero rather than surface a descriptive
configuration error). -/
theorem split_work_zero_total_returns : split_work 0 5 = (0, 0) := rfl

/-- C8 amended: zero-valued configuration is rejected with a descriptive
failure by the run entry points before any estimation work starts (zero
iterations, zero samples, zero thread count), while `split_work` itself
performs no validation: it is plain division and remainder, and for
`total_units = 0` (with a nonzero bucket count, where the Rust division is
defined — `buckets = 0` panics instead) it returns `(0, 0)` instead of
failing — zero inputs are rejected upstream by the callers, not by
`split_work`. -/
theorem zero_config_rejected_by_callers (samples thread_count base_seed : Nat)
    (hs : 1 ≤ samples) :
    run_single_threaded 0 = Except.error ("Iterations must be greater than zero") ∧
    run_monte_carlo 0 thread_count base_seed
      = Except.error ("Samples must be greater than zero") ∧
    run_monte_carlo samples 0 base_seed
      = Except.error ("Thread count must be at least 1") ∧
    (∀ buckets : Nat, 1 ≤ buckets → split_work 0 buckets = (0, 0)) := by
  refine ⟨rfl, rfl, ?_, fun buckets _ => ?_⟩
  · simp only [run_monte_carlo]
    rw [if_neg (by omega : ¬samples = 0)]
    simp
  · simp [split_work]

theorem zero_config_rejected_by_callers_witness :
    run_monte_carlo 1 0 0 = Except.error ("Thread count must be at least 1") :=
  (zero_config_rejected_by_callers 1 0 0 (by norm_num)).2.2.1
